import Mathlib

/-!
Shallow embedding of `cmd/handler.go` from the exporter-merger repository.

The handler fans out one HTTP fetch per configured exporter, parses each
response into a map from metric-family name to metric family, appends each
successfully parsed map to a shared slice (`responses`, pre-sized with 1024
nil maps), merges the per-source maps into one map, optionally deduplicates
each family by label-set signature, and serializes the families in sorted
name order to the output writer.

Go maps from family name to family are modelled as association lists
`List (String × MetricFamily)`; a nil map is the empty list.  Sample values
are never inspected by the handler, so a metric's samples are modelled by a
single integer field.  `sort.Strings` is modelled by insertion sort, which
is extensionally equal to it (the sorted permutation of a list of strings
is unique).
-/

/-- Metric type from the Prometheus client model (`MetricType`). -/
inductive MetricType where
  | counter
  | gauge
  | summary
  | untyped
  | histogram
deriving DecidableEq, Repr

/-- A label pair (`prom.LabelPair`): `GetName`/`GetValue` yield strings. -/
structure LabelPair where
  name : String
  value : String
deriving DecidableEq, Repr

/-- A time series (`prom.Metric`): a label set plus sample values.  The
handler never inspects sample values, so they are modelled by one integer. -/
structure Metric where
  label : List LabelPair
  value : Int
deriving DecidableEq, Repr

/-- A metric family (`prom.MetricFamily`): name, help, type and the ordered
series list. -/
structure MetricFamily where
  name : String
  help : String
  mtype : MetricType
  metric : List Metric
deriving DecidableEq, Repr

/-- A per-source parse result: the Go map from family name to family,
modelled as an association list (`map[string]*prom.MetricFamily`). -/
abbrev SourcePart := List (String × MetricFamily)

/-- Lexicographic comparison of character lists, as Go compares strings
byte by byte (UTF-8 byte order and code-point order coincide). -/
def charListLe : List Char → List Char → Bool
  | [], _ => true
  | _ :: _, [] => false
  | a :: as, b :: bs =>
    if a < b then true
    else if b < a then false
    else charListLe as bs

/-- Go's string comparison `a <= b`, used by `sort.Strings`. -/
def stringLe (s t : String) : Bool :=
  charListLe s.data t.data

/-- Embedding of `sort.Strings` (handler.go:86,120): the sorted permutation
of a list of strings is unique, so insertion sort models it exactly. -/
def sortStrings (l : List String) : List String :=
  List.insertionSort (fun a b => stringLe a b = true) l

/-- Embedding of `labelSignature` (handler.go:115-122): format each label
pair as `name=value`, sort the strings, join with `","`. -/
def labelSignature (labels : List LabelPair) : String :=
  String.intercalate ","
    (sortStrings (labels.map (fun label => label.name ++ "=" ++ label.value)))

/-- Embedding of the loop of `deduplicateMetricFamily` (handler.go:102-109):
skip a metric whose label signature was already seen, otherwise record the
signature and keep the metric. -/
def dedupMetrics (seen : List String) : List Metric → List Metric
  | [] => []
  | m :: rest =>
    if (labelSignature m.label) ∈ seen then
      dedupMetrics seen rest
    else
      m :: dedupMetrics (labelSignature m.label :: seen) rest

/-- Embedding of `deduplicateMetricFamily` (handler.go:98-113): replace the
family's series list with its deduplicated form. -/
def deduplicateMetricFamily (mf : MetricFamily) : MetricFamily :=
  { mf with metric := dedupMetrics [] mf.metric }

/-- Embedding of the deduplication pass of `Merge` (handler.go:76-80): every
family in the merged map is replaced by its deduplicated form. -/
def deduplicateAll (mfs : List (String × MetricFamily)) :
    List (String × MetricFamily) :=
  mfs.map (fun p => (p.1, deduplicateMetricFamily p.2))

/-- Go map lookup `mfs[n]` on the association-list model: the first binding
whose key is `n`, if any. -/
def lookupFamily (mfs : List (String × MetricFamily)) (n : String) :
    Option MetricFamily :=
  (mfs.find? (fun p => p.1 == n)).map Prod.snd

/-- Embedding of the body of the merge loop (handler.go:67-73): if family
name `n` is already bound, append the incoming series to the existing
family's series list; otherwise insert the incoming family as-is. -/
def mergeEntry (mfs : List (String × MetricFamily)) (n : String)
    (mf : MetricFamily) : List (String × MetricFamily) :=
  if mfs.any (fun p => p.1 == n) then
    mfs.map (fun p =>
      if p.1 == n then (p.1, { p.2 with metric := p.2.metric ++ mf.metric })
      else p)
  else
    mfs ++ [(n, mf)]

/-- Embedding of the inner merge loop (handler.go:66-73): fold every binding
of one source's map into the accumulated merged map. -/
def mergePart (mfs : List (String × MetricFamily)) (part : SourcePart) :
    List (String × MetricFamily) :=
  part.foldl (fun acc p => mergeEntry acc p.1 p.2) mfs

/-- Embedding of the outer merge loop (handler.go:65-74): fold every
response into the initially empty merged map. -/
def mergeParts (responses : List SourcePart) : List (String × MetricFamily) :=
  responses.foldl mergePart []

/-- Embedding of the `responses` accumulator (handler.go:34,58-60): a slice
pre-sized with 1024 nil maps, after which each successful fetch+parse
outcome is appended in arrival order; a failed source appends nothing. -/
def collectResponses (outcomes : List (Option SourcePart)) : List SourcePart :=
  List.replicate 1024 [] ++ outcomes.filterMap id

/-- Embedding of the name-collection and sort (handler.go:82-86) combined
with the emission order (handler.go:89-90): the sorted family names, each
paired with the family the merged map binds it to. -/
def serializedFamilies (mfs : List (String × MetricFamily)) :
    List (String × MetricFamily) :=
  (sortStrings (mfs.map Prod.fst)).filterMap
    (fun n => (lookupFamily mfs n).map (fun f => (n, f)))

/-- Embedding of the encode loop (handler.go:88-95).  The writer is
modelled by `writeOk i`, telling whether the `i`-th `Encode` call succeeds.
The result is the list of families actually written and, when a write was
rejected, the index at which it happened (the error the handler logs before
returning). -/
def encodeLoop (writeOk : Nat → Bool) :
    Nat → List (String × MetricFamily) →
    List (String × MetricFamily) × Option Nat
  | _, [] => ([], none)
  | i, f :: rest =>
    if writeOk i then
      let r := encodeLoop writeOk (i + 1) rest
      (f :: r.1, r.2)
    else
      ([], some i)

/-- Embedding of the pure core of `Handler.Merge` (handler.go:31-96) as a
function of the arrival-ordered per-source outcomes (`none` for a source
whose fetch or parse failed) and the writer behaviour: merge, optionally
deduplicate, then emit in sorted family-name order. -/
def MergeRun (deduplicate : Bool) (outcomes : List (Option SourcePart))
    (writeOk : Nat → Bool) :
    List (String × MetricFamily) × Option Nat :=
  let mfs := mergeParts (collectResponses outcomes)
  let mfs2 := if deduplicate then deduplicateAll mfs else mfs
  encodeLoop writeOk 0 (serializedFamilies mfs2)

/-- Embedding of the client timeout computation (handler.go:36):
`time.Second * time.Duration(h.ExportersHTTPTimeout)`, in nanoseconds. -/
def httpClientTimeoutNanos (exportersHTTPTimeout : Int) : Int :=
  1000000000 * exportersHTTPTimeout

/-- Contract of `net/http.Client` for the `Timeout` field used at
handler.go:44: a timeout of zero means no timeout, so the fetch is bounded
exactly when the computed timeout is positive. -/
def fetchIsBounded (timeoutNanos : Int) : Bool :=
  timeoutNanos > 0

/-- Pointwise combination of two optional families, describing what the
merge loop does at one family name: both present appends the series, one
present keeps it, neither present stays absent. -/
def mergeFamilies : Option MetricFamily → Option MetricFamily → Option MetricFamily
  | some f, some g => some { f with metric := f.metric ++ g.metric }
  | some f, none => some f
  | none, og => og

/-- The series a single source contributes to family `n` (empty when the
source does not expose the family). -/
def seriesOf (part : SourcePart) (n : String) : List Metric :=
  ((lookupFamily part n).map MetricFamily.metric).getD []

/-- The first source family bound to name `n`, in source order. -/
def firstFamily (parts : List SourcePart) (n : String) : Option MetricFamily :=
  parts.findSome? (fun part => lookupFamily part n)

/-- Restatement of the deduplication contract in the spec's words: keep the
first series and drop every later series whose label signature is equal,
regardless of sample values. -/
def keepFirsts : List Metric → List Metric
  | [] => []
  | m :: rest =>
    m :: keepFirsts
      (rest.filter (fun m' => labelSignature m'.label ≠ labelSignature m.label))
termination_by l => l.length
decreasing_by
  simp only [List.length_cons]
  exact Nat.lt_succ_of_le (List.length_filter_le _ _)

theorem charListLe_iff_not_lex : ∀ as bs : List Char,
    charListLe as bs = true ↔ ¬ List.Lex (· < ·) bs as := by
  intro as
  induction as with
  | nil =>
    intro bs
    simp [charListLe, List.Lex.not_nil_right]
  | cons a as ih =>
    intro bs
    cases bs with
    | nil =>
      simp only [charListLe, Bool.false_eq_true, false_iff, not_not]
      exact List.Lex.nil
    | cons b bs =>
      simp only [charListLe]
      by_cases hab : a < b
      · simp only [hab, if_true, true_iff]
        intro hlex
        cases hlex with
        | cons h => exact lt_irrefl a hab
        | rel h => exact lt_asymm hab h
      · by_cases hba : b < a
        · simp only [hab, if_false, hba, if_true, Bool.false_eq_true, false_iff, not_not]
          exact List.Lex.rel hba
        · have heq : a = b := le_antisymm (not_lt.mp hba) (not_lt.mp hab)
          subst heq
          simp only [lt_irrefl, if_false]
          rw [ih bs]
          constructor
          · intro h hlex
            cases hlex with
            | cons h' => exact h h'
            | rel h' => exact lt_irrefl a h'
          · intro h hlex
            exact h (List.Lex.cons hlex)

theorem stringLe_iff (s t : String) : stringLe s t = true ↔ s ≤ t := by
  constructor
  · intro h hlt
    exact (charListLe_iff_not_lex s.data t.data).mp h (String.lt_iff_toList_lt.mp hlt)
  · intro h
    exact (charListLe_iff_not_lex s.data t.data).mpr
      (fun hlex => h (String.lt_iff_toList_lt.mpr hlex))

instance : IsTotal String (fun a b => stringLe a b = true) :=
  ⟨fun a b => by
    rw [stringLe_iff, stringLe_iff]
    exact le_total a b⟩

instance : IsTrans String (fun a b => stringLe a b = true) :=
  ⟨fun a b c hab hbc => by
    rw [stringLe_iff] at hab hbc ⊢
    exact le_trans hab hbc⟩

instance : IsAntisymm String (fun a b => stringLe a b = true) :=
  ⟨fun a b hab hba => by
    rw [stringLe_iff] at hab hba
    exact le_antisymm hab hba⟩

theorem sortStrings_perm (l : List String) : (sortStrings l).Perm l :=
  List.perm_insertionSort _ l

theorem sortStrings_sorted (l : List String) :
    List.Sorted (fun a b => stringLe a b = true) (sortStrings l) :=
  List.sorted_insertionSort _ l

theorem sortStrings_eq_of_perm {l₁ l₂ : List String} (h : l₁.Perm l₂) :
    sortStrings l₁ = sortStrings l₂ :=
  List.eq_of_perm_of_sorted
    (((sortStrings_perm l₁).trans h).trans (sortStrings_perm l₂).symm)
    (sortStrings_sorted l₁) (sortStrings_sorted l₂)

theorem sorted_lt_of_sorted_le : ∀ l : List String,
    List.Sorted (fun a b => stringLe a b = true) l → l.Nodup →
    List.Sorted (· < ·) l := by
  intro l
  induction l with
  | nil => intro _ _; exact List.sorted_nil
  | cons a t ih =>
    intro hs hnd
    rw [List.sorted_cons] at hs ⊢
    rw [List.nodup_cons] at hnd
    refine ⟨fun b hb => ?_, ih hs.2 hnd.2⟩
    exact lt_of_le_of_ne ((stringLe_iff a b).mp (hs.1 b hb))
      (fun heq => hnd.1 (heq ▸ hb))

theorem sortStrings_sorted_lt {l : List String} (h : l.Nodup) :
    List.Sorted (· < ·) (sortStrings l) :=
  sorted_lt_of_sorted_le _ (sortStrings_sorted l)
    (((sortStrings_perm l).nodup_iff).mpr h)
theorem lookupFamily_nil (n : String) : lookupFamily [] n = none := rfl

theorem lookupFamily_cons (k : String) (g : MetricFamily)
    (rest : List (String × MetricFamily)) (n : String) :
    lookupFamily ((k, g) :: rest) n =
      if k = n then some g else lookupFamily rest n := by
  unfold lookupFamily
  by_cases h : k = n
  · subst h
    rw [List.find?_cons_of_pos _ (by simp)]
    simp
  · rw [List.find?_cons_of_neg _ (by simpa using h)]
    simp [h]

theorem lookupFamily_isSome_iff (mfs : List (String × MetricFamily))
    (n : String) :
    (lookupFamily mfs n).isSome ↔ n ∈ mfs.map Prod.fst := by
  unfold lookupFamily
  rw [Option.isSome_map']
  rw [List.find?_isSome]
  constructor
  · rintro ⟨p, hp, hpn⟩
    rw [beq_iff_eq] at hpn
    exact hpn ▸ List.mem_map_of_mem Prod.fst hp
  · intro hmem
    obtain ⟨p, hp, hpn⟩ := List.mem_map.mp hmem
    exact ⟨p, hp, by simp [hpn]⟩

theorem lookupFamily_eq_none_iff (mfs : List (String × MetricFamily))
    (n : String) :
    lookupFamily mfs n = none ↔ n ∉ mfs.map Prod.fst := by
  rw [← lookupFamily_isSome_iff, Option.not_isSome_iff_eq_none]

theorem lookupFamily_mem (mfs : List (String × MetricFamily)) (n : String)
    (f : MetricFamily) (h : lookupFamily mfs n = some f) : (n, f) ∈ mfs := by
  unfold lookupFamily at h
  obtain ⟨p, hp, hps⟩ := Option.map_eq_some'.mp h
  have hmem := List.mem_of_find?_eq_some hp
  have hpn := List.find?_some hp
  rw [beq_iff_eq] at hpn
  obtain ⟨p1, p2⟩ := p
  simp only at hps hpn
  subst hps hpn
  exact hmem

theorem mem_lookupFamily (mfs : List (String × MetricFamily)) (n : String)
    (f : MetricFamily) (hnd : (mfs.map Prod.fst).Nodup)
    (h : (n, f) ∈ mfs) : lookupFamily mfs n = some f := by
  induction mfs with
  | nil => cases h
  | cons e rest ih =>
    obtain ⟨k, g⟩ := e
    rw [List.map_cons, List.nodup_cons] at hnd
    rw [lookupFamily_cons]
    rcases List.mem_cons.mp h with heq | hmem
    · rw [Prod.mk.injEq] at heq
      obtain ⟨h1, h2⟩ := heq
      subst h1
      subst h2
      simp
    · have hkn : k ≠ n := by
        intro hk
        subst hk
        exact hnd.1 (List.mem_map.mpr ⟨(k, f), hmem, rfl⟩)
      simp only [hkn, if_false]
      exact ih hnd.2 hmem

theorem lookupFamily_perm {l l' : List (String × MetricFamily)}
    (hp : l.Perm l') (hnd : (l.map Prod.fst).Nodup) (n : String) :
    lookupFamily l n = lookupFamily l' n := by
  have hnd' : (l'.map Prod.fst).Nodup := ((hp.map Prod.fst).nodup_iff).mp hnd
  cases h : lookupFamily l n with
  | none =>
    rw [lookupFamily_eq_none_iff] at h
    symm
    rw [lookupFamily_eq_none_iff]
    intro hmem
    exact h (((hp.map Prod.fst).mem_iff).mpr hmem)
  | some f =>
    exact (mem_lookupFamily l' n f hnd' (hp.mem_iff.mp (lookupFamily_mem l n f h))).symm
theorem lookupFamily_map_update (mfs : List (String × MetricFamily))
    (n : String) (upd : MetricFamily → MetricFamily) (n' : String) :
    lookupFamily
      (mfs.map (fun p => if p.1 == n then (p.1, upd p.2) else p)) n' =
      if n = n' then (lookupFamily mfs n').map upd else lookupFamily mfs n' := by
  unfold lookupFamily
  rw [List.find?_map]
  have hcomp :
      ((fun p : String × MetricFamily => p.1 == n') ∘
        (fun p => if p.1 == n then (p.1, upd p.2) else p)) =
      fun p : String × MetricFamily => p.1 == n' := by
    funext q
    by_cases hq : q.1 = n <;> simp [hq]
  rw [hcomp]
  by_cases hnn : n = n'
  · subst hnn
    simp only [if_true]
    cases hfind : mfs.find? (fun p => p.1 == n) with
    | none => simp
    | some q =>
      have hq := List.find?_some hfind
      show some (if (q.1 == n) = true then (q.1, upd q.2) else q).2 =
        some (upd q.2)
      rw [if_pos hq]
  · simp only [hnn, if_false]
    cases hfind : mfs.find? (fun p => p.1 == n') with
    | none => simp
    | some q =>
      have hq := List.find?_some hfind
      rw [beq_iff_eq] at hq
      have hqn : ¬((q.1 == n) = true) := by
        rw [beq_iff_eq, hq]
        exact fun h => hnn h.symm
      show some (if (q.1 == n) = true then (q.1, upd q.2) else q).2 = some q.2
      rw [if_neg hqn]

theorem any_key_iff (mfs : List (String × MetricFamily)) (n : String) :
    (mfs.any (fun p => p.1 == n)) = true ↔ n ∈ mfs.map Prod.fst := by
  rw [List.any_eq_true]
  constructor
  · rintro ⟨p, hp, hpn⟩
    rw [beq_iff_eq] at hpn
    exact hpn ▸ List.mem_map.mpr ⟨p, hp, rfl⟩
  · intro hmem
    obtain ⟨p, hp, hpn⟩ := List.mem_map.mp hmem
    exact ⟨p, hp, by simp [hpn]⟩

theorem lookupFamily_mergeEntry_self (mfs : List (String × MetricFamily))
    (n : String) (mf : MetricFamily) :
    lookupFamily (mergeEntry mfs n mf) n =
      mergeFamilies (lookupFamily mfs n) (some mf) := by
  unfold mergeEntry
  by_cases h : mfs.any (fun p => p.1 == n)
  · rw [if_pos h]
    rw [lookupFamily_map_update mfs n
      (fun f => { f with metric := f.metric ++ mf.metric })]
    simp only [if_pos rfl]
    have hsome : (lookupFamily mfs n).isSome := by
      rw [lookupFamily_isSome_iff]
      exact (any_key_iff mfs n).mp h
    cases hl : lookupFamily mfs n with
    | none => rw [hl] at hsome; cases hsome
    | some f => simp [mergeFamilies]
  · rw [if_neg h]
    have hnone : lookupFamily mfs n = none := by
      rw [lookupFamily_eq_none_iff]
      intro hmem
      exact h ((any_key_iff mfs n).mpr hmem)
    unfold lookupFamily at hnone ⊢
    rw [List.find?_append]
    rw [Option.map_eq_none'] at hnone
    rw [hnone]
    simp [mergeFamilies]

theorem lookupFamily_mergeEntry_ne (mfs : List (String × MetricFamily))
    (n : String) (mf : MetricFamily) (n' : String) (hne : n ≠ n') :
    lookupFamily (mergeEntry mfs n mf) n' = lookupFamily mfs n' := by
  unfold mergeEntry
  by_cases h : mfs.any (fun p => p.1 == n)
  · rw [if_pos h]
    rw [lookupFamily_map_update mfs n
      (fun f => { f with metric := f.metric ++ mf.metric })]
    rw [if_neg hne]
  · rw [if_neg h]
    unfold lookupFamily
    rw [List.find?_append]
    cases hfind : mfs.find? (fun p => p.1 == n') with
    | none =>
      have h1 : (((n, mf) :: []).find? (fun p => p.1 == n')) = none := by
        rw [List.find?_eq_none]
        intro p hp
        rcases List.mem_singleton.mp hp with rfl
        simpa using hne
      simp [h1]
    | some q => simp

theorem mergePart_cons (mfs : List (String × MetricFamily)) (k : String)
    (g : MetricFamily) (rest : SourcePart) :
    mergePart mfs ((k, g) :: rest) = mergePart (mergeEntry mfs k g) rest := rfl

theorem lookupFamily_mergePart (part : SourcePart) :
    (part.map Prod.fst).Nodup →
    ∀ (mfs : List (String × MetricFamily)) (n : String),
    lookupFamily (mergePart mfs part) n =
      mergeFamilies (lookupFamily mfs n) (lookupFamily part n) := by
  induction part with
  | nil =>
    intro _ mfs n
    show lookupFamily mfs n = _
    rw [lookupFamily_nil]
    cases lookupFamily mfs n <;> rfl
  | cons e rest ih =>
    intro hnd mfs n
    obtain ⟨k, g⟩ := e
    rw [List.map_cons, List.nodup_cons] at hnd
    rw [mergePart_cons, ih hnd.2, lookupFamily_cons]
    by_cases hkn : k = n
    · subst hkn
      rw [lookupFamily_mergeEntry_self]
      have hrest : lookupFamily rest k = none := by
        rw [lookupFamily_eq_none_iff]
        exact hnd.1
      rw [hrest]
      simp only [if_pos rfl]
      cases lookupFamily mfs k <;> rfl
    · rw [lookupFamily_mergeEntry_ne mfs k g n hkn]
      simp only [hkn, if_false]

theorem lookupFamily_foldl_mergePart (parts : List SourcePart) :
    (∀ part ∈ parts, (part.map Prod.fst).Nodup) →
    ∀ (acc : List (String × MetricFamily)) (n : String),
    lookupFamily (parts.foldl mergePart acc) n =
      parts.foldl (fun o part => mergeFamilies o (lookupFamily part n))
        (lookupFamily acc n) := by
  induction parts with
  | nil => intro _ acc n; rfl
  | cons part rest ih =>
    intro hnd acc n
    rw [List.foldl_cons, List.foldl_cons]
    rw [ih (fun p hp => hnd p (List.mem_cons_of_mem _ hp))]
    rw [lookupFamily_mergePart part (hnd part (List.mem_cons_self part rest)) acc n]
theorem foldl_mergeFamilies_some (parts : List SourcePart) :
    ∀ (f : MetricFamily) (n : String),
    parts.foldl (fun o part => mergeFamilies o (lookupFamily part n))
        (some f) =
      some { f with
        metric := f.metric ++
          (parts.map (fun part => seriesOf part n)).flatten } := by
  induction parts with
  | nil =>
    intro f n
    simp
  | cons part rest ih =>
    intro f n
    rw [List.foldl_cons]
    cases hl : lookupFamily part n with
    | none =>
      show rest.foldl _ (mergeFamilies (some f) none) = _
      rw [show mergeFamilies (some f) none = some f from rfl, ih]
      simp [seriesOf, hl]
    | some g =>
      show rest.foldl _ (mergeFamilies (some f) (some g)) = _
      rw [show mergeFamilies (some f) (some g) =
        some { f with metric := f.metric ++ g.metric } from rfl, ih]
      simp [seriesOf, hl, List.append_assoc]

theorem foldl_mergeFamilies_none (parts : List SourcePart) :
    ∀ n : String,
    parts.foldl (fun o part => mergeFamilies o (lookupFamily part n)) none =
      (firstFamily parts n).map
        (fun f => { f with
          metric := (parts.map (fun part => seriesOf part n)).flatten }) := by
  induction parts with
  | nil => intro n; rfl
  | cons part rest ih =>
    intro n
    rw [List.foldl_cons]
    cases hl : lookupFamily part n with
    | none =>
      show rest.foldl _ (mergeFamilies none none) = _
      rw [show mergeFamilies none none = none from rfl, ih]
      have h2 : firstFamily (part :: rest) n = firstFamily rest n := by
        simp [firstFamily, List.findSome?_cons, hl]
      rw [h2]
      cases firstFamily rest n <;> simp [seriesOf, hl]
    | some g =>
      show rest.foldl _ (mergeFamilies none (some g)) = _
      rw [show mergeFamilies none (some g) = some g from rfl]
      rw [foldl_mergeFamilies_some]
      have h2 : firstFamily (part :: rest) n = some g := by
        simp [firstFamily, List.findSome?_cons, hl]
      rw [h2]
      simp [seriesOf, hl]

theorem lookupFamily_mergeParts (parts : List SourcePart)
    (hnd : ∀ part ∈ parts, (part.map Prod.fst).Nodup) (n : String) :
    lookupFamily (mergeParts parts) n =
      (firstFamily parts n).map
        (fun f => { f with
          metric := (parts.map (fun part => seriesOf part n)).flatten }) := by
  rw [mergeParts, lookupFamily_foldl_mergePart parts hnd, lookupFamily_nil,
    foldl_mergeFamilies_none]

theorem mergePart_nil (mfs : List (String × MetricFamily)) :
    mergePart mfs [] = mfs := rfl

theorem mergeParts_replicate_nil (k : Nat) (parts : List SourcePart) :
    mergeParts (List.replicate k [] ++ parts) = mergeParts parts := by
  rw [mergeParts, List.foldl_append, mergeParts]
  congr 1
  induction k with
  | zero => rfl
  | succ k ih => rw [List.replicate_succ, List.foldl_cons, mergePart_nil, ih]
theorem mergeEntry_not_mem (mfs : List (String × MetricFamily)) (n : String)
    (mf : MetricFamily) (h : n ∉ mfs.map Prod.fst) :
    mergeEntry mfs n mf = mfs ++ [(n, mf)] := by
  unfold mergeEntry
  rw [if_neg]
  intro hany
  exact h ((any_key_iff mfs n).mp hany)

theorem mergePart_disjoint (part : SourcePart) :
    ∀ mfs : List (String × MetricFamily),
    (∀ k ∈ part.map Prod.fst, k ∉ mfs.map Prod.fst) →
    (part.map Prod.fst).Nodup →
    mergePart mfs part = mfs ++ part := by
  induction part with
  | nil => intro mfs _ _; rw [mergePart_nil, List.append_nil]
  | cons e rest ih =>
    intro mfs hdisj hnd
    obtain ⟨k, g⟩ := e
    rw [List.map_cons, List.nodup_cons] at hnd
    rw [mergePart_cons]
    rw [mergeEntry_not_mem mfs k g
      (hdisj k (by rw [List.map_cons]; exact List.mem_cons_self _ _))]
    rw [ih (mfs ++ [(k, g)]) ?hdisj hnd.2]
    · rw [List.append_assoc, List.singleton_append]
    · intro k' hk'
      rw [List.map_append, List.mem_append]
      rintro (hk1 | hk2)
      · exact hdisj k' (by rw [List.map_cons]; exact List.mem_cons_of_mem _ hk') hk1
      · rcases List.mem_singleton.mp hk2 with rfl
        exact hnd.1 hk'

theorem mergeParts_pair (p1 p2 : SourcePart)
    (h1 : (p1.map Prod.fst).Nodup) (h2 : (p2.map Prod.fst).Nodup)
    (hd : ∀ k ∈ p1.map Prod.fst, k ∉ p2.map Prod.fst) :
    mergeParts [p1, p2] = p1 ++ p2 := by
  show mergePart (mergePart [] p1) p2 = p1 ++ p2
  rw [mergePart_disjoint p1 [] (by intro k _ hk; cases hk) h1,
    List.nil_append]
  rw [mergePart_disjoint p2 p1 (fun k hk hk1 => hd k hk1 hk) h2]

theorem serializedFamilies_perm {l l' : List (String × MetricFamily)}
    (hp : l.Perm l') (hnd : (l.map Prod.fst).Nodup) :
    serializedFamilies l = serializedFamilies l' := by
  unfold serializedFamilies
  rw [sortStrings_eq_of_perm (hp.map Prod.fst)]
  have hfun : (fun n => (lookupFamily l n).map (fun f => (n, f))) =
      (fun n => (lookupFamily l' n).map (fun f => (n, f))) := by
    funext n
    rw [lookupFamily_perm hp hnd n]
  rw [hfun]

theorem keys_deduplicateAll (mfs : List (String × MetricFamily)) :
    (deduplicateAll mfs).map Prod.fst = mfs.map Prod.fst := by
  unfold deduplicateAll
  rw [List.map_map]
  rfl
theorem dedupMetrics_sublist (l : List Metric) :
    ∀ seen, (dedupMetrics seen l).Sublist l := by
  induction l with
  | nil => intro seen; exact List.Sublist.refl []
  | cons m rest ih =>
    intro seen
    rw [dedupMetrics]
    by_cases h : labelSignature m.label ∈ seen
    · rw [if_pos h]
      exact List.Sublist.cons m (ih seen)
    · rw [if_neg h]
      exact List.Sublist.cons₂ m (ih _)

theorem dedupMetrics_eq_keepFirsts_filter (l : List Metric) :
    ∀ seen, dedupMetrics seen l =
      keepFirsts (l.filter (fun m => labelSignature m.label ∉ seen)) := by
  induction l with
  | nil =>
    intro seen
    rw [List.filter_nil]
    rw [keepFirsts]
    rfl
  | cons m rest ih =>
    intro seen
    rw [dedupMetrics]
    by_cases h : labelSignature m.label ∈ seen
    · rw [if_pos h]
      rw [List.filter_cons_of_neg (by simpa using h)]
      exact ih seen
    · rw [if_neg h]
      rw [List.filter_cons_of_pos (by simpa using h)]
      rw [keepFirsts]
      congr 1
      rw [ih (labelSignature m.label :: seen)]
      congr 1
      rw [List.filter_filter]
      apply List.filter_congr
      intro m' _
      by_cases h1 : labelSignature m'.label = labelSignature m.label <;>
        by_cases h2 : labelSignature m'.label ∈ seen <;>
          simp [List.mem_cons, h1, h2]

theorem dedupMetrics_eq_keepFirsts (l : List Metric) :
    dedupMetrics [] l = keepFirsts l := by
  rw [dedupMetrics_eq_keepFirsts_filter l []]
  congr 1
  apply List.filter_eq_self.mpr
  intro a _
  simp

theorem dedupMetrics_invariant (l : List Metric) :
    ∀ seen, (∀ m ∈ dedupMetrics seen l, labelSignature m.label ∉ seen)
      ∧ ((dedupMetrics seen l).map
          (fun m => labelSignature m.label)).Nodup := by
  induction l with
  | nil =>
    intro seen
    exact ⟨fun m h => absurd h (List.not_mem_nil m), List.nodup_nil⟩
  | cons m rest ih =>
    intro seen
    rw [dedupMetrics]
    by_cases h : labelSignature m.label ∈ seen
    · rw [if_pos h]
      exact ih seen
    · rw [if_neg h]
      obtain ⟨ih1, ih2⟩ := ih (labelSignature m.label :: seen)
      constructor
      · intro m' hm'
        rcases List.mem_cons.mp hm' with rfl | hm2
        · exact h
        · exact fun hs => ih1 m' hm2 (List.mem_cons_of_mem _ hs)
      · rw [List.map_cons, List.nodup_cons]
        refine ⟨?_, ih2⟩
        intro hmem
        obtain ⟨m', hm', hsig⟩ := List.mem_map.mp hmem
        apply ih1 m' hm'
        rw [hsig]
        exact List.mem_cons_self _ _

theorem dedupMetrics_of_clean (l : List Metric) :
    ∀ seen, (∀ m ∈ l, labelSignature m.label ∉ seen) →
    ((l.map (fun m => labelSignature m.label)).Nodup) →
    dedupMetrics seen l = l := by
  induction l with
  | nil => intro seen _ _; rfl
  | cons m rest ih =>
    intro seen hseen hnd
    rw [List.map_cons, List.nodup_cons] at hnd
    rw [dedupMetrics, if_neg (hseen m (List.mem_cons_self _ _))]
    congr 1
    apply ih
    · intro m' hm' hmem
      rcases List.mem_cons.mp hmem with heq | hsn
      · exact hnd.1 (List.mem_map.mpr ⟨m', hm', heq⟩)
      · exact hseen m' (List.mem_cons_of_mem _ hm') hsn
    · exact hnd.2

theorem dedupMetrics_idem (l : List Metric) :
    dedupMetrics [] (dedupMetrics [] l) = dedupMetrics [] l := by
  obtain ⟨h1, h2⟩ := dedupMetrics_invariant l []
  exact dedupMetrics_of_clean _ [] h1 h2

theorem deduplicateMetricFamily_idem (mf : MetricFamily) :
    deduplicateMetricFamily (deduplicateMetricFamily mf) =
      deduplicateMetricFamily mf := by
  show ({ mf with
    metric := dedupMetrics [] (dedupMetrics [] mf.metric) } : MetricFamily) =
    { mf with metric := dedupMetrics [] mf.metric }
  rw [dedupMetrics_idem]

theorem deduplicateAll_idem (mfs : List (String × MetricFamily)) :
    deduplicateAll (deduplicateAll mfs) = deduplicateAll mfs := by
  unfold deduplicateAll
  rw [List.map_map]
  have hcomp :
      ((fun p : String × MetricFamily => (p.1, deduplicateMetricFamily p.2)) ∘
        (fun p : String × MetricFamily =>
          (p.1, deduplicateMetricFamily p.2))) =
      fun p : String × MetricFamily =>
        (p.1, deduplicateMetricFamily p.2) := by
    funext p
    show (p.1, deduplicateMetricFamily (deduplicateMetricFamily p.2)) =
      (p.1, deduplicateMetricFamily p.2)
    rw [deduplicateMetricFamily_idem]
  rw [hcomp]

theorem lookupFamily_deduplicateAll (mfs : List (String × MetricFamily))
    (n : String) :
    lookupFamily (deduplicateAll mfs) n =
      (lookupFamily mfs n).map deduplicateMetricFamily := by
  unfold lookupFamily deduplicateAll
  rw [List.find?_map]
  have hcomp :
      ((fun p : String × MetricFamily => p.1 == n) ∘
        (fun p : String × MetricFamily =>
          (p.1, deduplicateMetricFamily p.2))) =
      fun p : String × MetricFamily => p.1 == n := rfl
  rw [hcomp]
  cases mfs.find? (fun p => p.1 == n) <;> rfl
theorem filterMap_lookup_map_fst (mfs : List (String × MetricFamily)) :
    ∀ names : List String, (∀ n ∈ names, n ∈ mfs.map Prod.fst) →
    (names.filterMap
      (fun n => (lookupFamily mfs n).map (fun f => (n, f)))).map Prod.fst =
      names := by
  intro names
  induction names with
  | nil => intro _; rfl
  | cons a rest ih =>
    intro hmem
    have hs : (lookupFamily mfs a).isSome :=
      (lookupFamily_isSome_iff mfs a).mpr (hmem a (List.mem_cons_self _ _))
    cases hl : lookupFamily mfs a with
    | none => rw [hl] at hs; cases hs
    | some f =>
      simp only [List.filterMap_cons, hl, Option.map_some']
      rw [List.map_cons]
      rw [ih (fun n hn => hmem n (List.mem_cons_of_mem _ hn))]

theorem map_fst_serializedFamilies (mfs : List (String × MetricFamily)) :
    (serializedFamilies mfs).map Prod.fst = sortStrings (mfs.map Prod.fst) := by
  unfold serializedFamilies
  apply filterMap_lookup_map_fst
  intro n hn
  exact (sortStrings_perm _).mem_iff.mp hn

theorem serializedFamilies_sorted_keys (mfs : List (String × MetricFamily))
    (hnd : (mfs.map Prod.fst).Nodup) :
    List.Sorted (· < ·) ((serializedFamilies mfs).map Prod.fst) := by
  rw [map_fst_serializedFamilies]
  exact sortStrings_sorted_lt hnd

theorem mem_serializedFamilies_iff (mfs : List (String × MetricFamily))
    (n : String) (f : MetricFamily) :
    (n, f) ∈ serializedFamilies mfs ↔ lookupFamily mfs n = some f := by
  unfold serializedFamilies
  rw [List.mem_filterMap]
  constructor
  · rintro ⟨n', hn', heq⟩
    rw [Option.map_eq_some'] at heq
    obtain ⟨g, hg, hpair⟩ := heq
    rw [Prod.mk.injEq] at hpair
    obtain ⟨rfl, rfl⟩ := hpair
    exact hg
  · intro hl
    refine ⟨n, ?_, ?_⟩
    · apply (sortStrings_perm _).mem_iff.mpr
      apply (lookupFamily_isSome_iff mfs n).mp
      rw [hl]
      rfl
    · rw [hl]
      rfl

theorem encodeLoop_fail (writeOk : Nat → Bool) :
    ∀ (fams : List (String × MetricFamily)) (k d : Nat),
    d < fams.length →
    (∀ j, j < d → writeOk (k + j) = true) →
    writeOk (k + d) = false →
    encodeLoop writeOk k fams = (fams.take d, some (k + d)) := by
  intro fams
  induction fams with
  | nil =>
    intro k d hd _ _
    cases hd
  | cons f rest ih =>
    intro k d hd hok hfail
    cases d with
    | zero =>
      rw [Nat.add_zero] at hfail
      rw [encodeLoop, if_neg (by rw [hfail]; exact Bool.false_ne_true)]
      rfl
    | succ d' =>
      have hk : writeOk k = true := by
        have h0 := hok 0 (Nat.succ_pos d')
        rwa [Nat.add_zero] at h0
      rw [encodeLoop, if_pos hk]
      have hrec := ih (k + 1) d' (Nat.lt_of_succ_lt_succ hd)
        (fun j hj => by
          have hj1 := hok (j + 1) (Nat.succ_lt_succ hj)
          rwa [show k + (j + 1) = k + 1 + j by omega] at hj1)
        (by rwa [show k + 1 + d' = k + (d' + 1) by omega])
      simp only [hrec]
      rw [List.take_succ_cons]
      rw [show k + 1 + d' = k + (d' + 1) by omega]
/-- Claim C2: for every metric family the deduplicator keeps exactly the
first series per distinct label signature (later series with an equal
signature are dropped regardless of sample values), preserves the relative
order of survivors (the result is a sublist of the input), and families are
deduplicated independently (the deduplicated binding of each name is the
deduplication of that name's family alone). -/
theorem dedup_keeps_first_per_signature :
    ∀ mf : MetricFamily,
      (deduplicateMetricFamily mf).metric = keepFirsts mf.metric ∧
      ((deduplicateMetricFamily mf).metric).Sublist mf.metric ∧
      ∀ (mfs : List (String × MetricFamily)) (n : String),
        lookupFamily (deduplicateAll mfs) n =
          (lookupFamily mfs n).map deduplicateMetricFamily :=
  fun mf =>
    ⟨dedupMetrics_eq_keepFirsts mf.metric,
     dedupMetrics_sublist mf.metric [],
     lookupFamily_deduplicateAll⟩

/-- Claim C8: deduplication is idempotent, on each family and on the whole
merged family set. -/
theorem dedup_idempotent :
    ∀ mfs : List (String × MetricFamily),
      deduplicateAll (deduplicateAll mfs) = deduplicateAll mfs ∧
      ∀ mf : MetricFamily,
        deduplicateMetricFamily (deduplicateMetricFamily mf) =
          deduplicateMetricFamily mf :=
  fun mfs => ⟨deduplicateAll_idem mfs, deduplicateMetricFamily_idem⟩

/-- Claim C9: the results accumulator starts as 1024 nil maps followed by
the appended successful results, and merging those pre-sized nil entries
contributes nothing: the merged set equals the merge of the successful
results alone, for any number of sources. -/
theorem presized_accumulator_benign :
    ∀ outcomes : List (Option SourcePart),
      collectResponses outcomes =
        List.replicate 1024 [] ++ outcomes.filterMap id ∧
      mergeParts (collectResponses outcomes) =
        mergeParts (outcomes.filterMap id) :=
  fun outcomes => ⟨rfl, mergeParts_replicate_nil 1024 _⟩

/-- Claim C10: the label signature is not injective — a label value
containing the separator and the pair formatter collides with a split label
set — and with deduplication enabled the second series, whose label set
differs from the first, is discarded. -/
theorem labelSignature_not_injective :
    labelSignature [⟨"a", "b,c=d"⟩] =
      labelSignature [⟨"a", "b"⟩, ⟨"c", "d"⟩] ∧
    [(⟨"a", "b,c=d"⟩ : LabelPair)] ≠ [⟨"a", "b"⟩, ⟨"c", "d"⟩] ∧
    deduplicateMetricFamily
      ⟨"f", "h", MetricType.gauge,
        [⟨[⟨"a", "b,c=d"⟩], 1⟩, ⟨[⟨"a", "b"⟩, ⟨"c", "d"⟩], 2⟩]⟩ =
      ⟨"f", "h", MetricType.gauge, [⟨[⟨"a", "b,c=d"⟩], 1⟩]⟩ :=
  ⟨by decide, by decide, by decide⟩

/-- Claim C4 (code bug): with `ExportersHTTPTimeout = 0` the handler
computes an `http.Client` timeout of 0 nanoseconds, which the Go client
contract defines as no timeout at all, so the fetch is left unbounded
rather than given a default bound or rejected. -/
theorem zero_timeout_unbounded :
    httpClientTimeoutNanos 0 = 0 ∧
    fetchIsBounded (httpClientTimeoutNanos 0) = false :=
  ⟨rfl, by decide⟩
set_option maxRecDepth 100000 in
/-- Claim C1 (counterexample): two runs whose per-source parse results are
identical but arrive in a different completion order produce different
output — the handler appends results in completion order, and with a shared
family name the series order (and hence the serialized output) changes. -/
theorem merge_depends_on_completion_order :
    MergeRun false
      [some [("f", ⟨"f", "h", MetricType.gauge, [⟨[⟨"a", "1"⟩], 1⟩]⟩)],
       some [("f", ⟨"f", "h", MetricType.gauge, [⟨[⟨"a", "2"⟩], 2⟩]⟩)]]
      (fun _ => true) ≠
    MergeRun false
      [some [("f", ⟨"f", "h", MetricType.gauge, [⟨[⟨"a", "2"⟩], 2⟩]⟩)],
       some [("f", ⟨"f", "h", MetricType.gauge, [⟨[⟨"a", "1"⟩], 1⟩]⟩)]]
      (fun _ => true) := by decide

/-- Claim C1 (amended): the handler processes per-source results in arrival
(completion) order, so the output is a function of that order; the output
is independent of the completion order when no family name is shared
between the sources, as for two successfully parsed sources with disjoint
family-name sets, whose two arrival orders give identical output. -/
theorem mergeRun_completion_order_invariant_of_disjoint
    (p1 p2 : SourcePart) (d : Bool) (writeOk : Nat → Bool)
    (h1 : (p1.map Prod.fst).Nodup) (h2 : (p2.map Prod.fst).Nodup)
    (hd : ∀ k ∈ p1.map Prod.fst, k ∉ p2.map Prod.fst) :
    MergeRun d [some p1, some p2] writeOk =
      MergeRun d [some p2, some p1] writeOk := by
  have hnd12 : ((p1 ++ p2).map Prod.fst).Nodup := by
    rw [List.map_append]
    exact List.Nodup.append h1 h2 (fun a ha hb => hd a ha hb)
  have hperm : (p1 ++ p2).Perm (p2 ++ p1) := List.perm_append_comm
  have key : serializedFamilies
      (if d then deduplicateAll (p1 ++ p2) else p1 ++ p2) =
      serializedFamilies
        (if d then deduplicateAll (p2 ++ p1) else p2 ++ p1) := by
    cases d with
    | false =>
      simp only [Bool.false_eq_true, if_false]
      exact serializedFamilies_perm hperm hnd12
    | true =>
      simp only [if_true]
      have hpermd := hperm.map
        (fun p : String × MetricFamily => (p.1, deduplicateMetricFamily p.2))
      have hndd : ((deduplicateAll (p1 ++ p2)).map Prod.fst).Nodup := by
        rw [keys_deduplicateAll]
        exact hnd12
      exact serializedFamilies_perm hpermd hndd
  show encodeLoop writeOk 0 (serializedFamilies
      (if d then
        deduplicateAll (mergeParts (collectResponses [some p1, some p2]))
      else mergeParts (collectResponses [some p1, some p2]))) =
    encodeLoop writeOk 0 (serializedFamilies
      (if d then
        deduplicateAll (mergeParts (collectResponses [some p2, some p1]))
      else mergeParts (collectResponses [some p2, some p1])))
  rw [show collectResponses [some p1, some p2] =
      List.replicate 1024 [] ++ [p1, p2] from rfl,
    show collectResponses [some p2, some p1] =
      List.replicate 1024 [] ++ [p2, p1] from rfl,
    mergeParts_replicate_nil, mergeParts_replicate_nil,
    mergeParts_pair p1 p2 h1 h2 hd,
    mergeParts_pair p2 p1 h2 h1 (fun k hk hk1 => hd k hk1 hk), key]

/-- Claim C1 (amended, witness): two concrete sources with disjoint family
names, merged in both arrival orders, give identical output. -/
theorem mergeRun_completion_order_invariant_of_disjoint_witness :
    (([("a", ⟨"a", "", MetricType.counter, []⟩)] :
        SourcePart).map Prod.fst).Nodup ∧
    (([("b", ⟨"b", "", MetricType.counter, []⟩)] :
        SourcePart).map Prod.fst).Nodup ∧
    (∀ k ∈ (([("a", ⟨"a", "", MetricType.counter, []⟩)] :
        SourcePart).map Prod.fst),
      k ∉ (([("b", ⟨"b", "", MetricType.counter, []⟩)] :
        SourcePart).map Prod.fst)) ∧
    MergeRun true
      [some [("a", ⟨"a", "", MetricType.counter, []⟩)],
       some [("b", ⟨"b", "", MetricType.counter, []⟩)]] (fun _ => true) =
    MergeRun true
      [some [("b", ⟨"b", "", MetricType.counter, []⟩)],
       some [("a", ⟨"a", "", MetricType.counter, []⟩)]] (fun _ => true) :=
  ⟨by decide, by decide, by decide,
   mergeRun_completion_order_invariant_of_disjoint _ _ true _
     (by decide) (by decide) (by decide)⟩
/-- Claim C3: for every family name, the merged binding carries the
metadata of the first source family seen for that name, and its series list
is the concatenation, in source order, of every source's series for that
name; a name not yet present is inserted as-is (the formula specializes to
the incoming family when only one source exposes it), and no mismatch of
help or type is validated. -/
theorem merger_appends_series_first_meta_wins (parts : List SourcePart)
    (hnd : ∀ part ∈ parts, (part.map Prod.fst).Nodup) (n : String) :
    lookupFamily (mergeParts parts) n =
      (firstFamily parts n).map
        (fun f => { f with
          metric := (parts.map (fun part => seriesOf part n)).flatten }) :=
  lookupFamily_mergeParts parts hnd n

/-- Claim C3 (witness): two sources share family name `f` with conflicting
help and type: the merged family keeps the first source's metadata and the
concatenated series. -/
theorem merger_appends_series_first_meta_wins_witness :
    (∀ part ∈ ([[("f", ⟨"f", "h1", MetricType.counter, [⟨[⟨"a", "1"⟩], 1⟩]⟩)],
        [("f", ⟨"f", "h2", MetricType.gauge, [⟨[⟨"a", "2"⟩], 2⟩]⟩),
         ("g", ⟨"g", "hg", MetricType.untyped, []⟩)]] : List SourcePart),
      (part.map Prod.fst).Nodup) ∧
    lookupFamily
      (mergeParts
        [[("f", ⟨"f", "h1", MetricType.counter, [⟨[⟨"a", "1"⟩], 1⟩]⟩)],
         [("f", ⟨"f", "h2", MetricType.gauge, [⟨[⟨"a", "2"⟩], 2⟩]⟩),
          ("g", ⟨"g", "hg", MetricType.untyped, []⟩)]]) "f" =
      (firstFamily
        [[("f", ⟨"f", "h1", MetricType.counter, [⟨[⟨"a", "1"⟩], 1⟩]⟩)],
         [("f", ⟨"f", "h2", MetricType.gauge, [⟨[⟨"a", "2"⟩], 2⟩]⟩),
          ("g", ⟨"g", "hg", MetricType.untyped, []⟩)]] "f").map
        (fun f => { f with
          metric :=
            (([[("f", ⟨"f", "h1", MetricType.counter, [⟨[⟨"a", "1"⟩], 1⟩]⟩)],
               [("f", ⟨"f", "h2", MetricType.gauge, [⟨[⟨"a", "2"⟩], 2⟩]⟩),
                ("g", ⟨"g", "hg", MetricType.untyped, []⟩)]] :
              List SourcePart).map
              (fun part => seriesOf part "f")).flatten }) :=
  ⟨by decide,
   merger_appends_series_first_meta_wins _ (by decide) "f"⟩

/-- Claim C5: a failed source (a `none` outcome) contributes no families
and does not change what the other sources contribute; when every source
fails, or no source is configured, the run emits no family and reports no
error — a valid empty document. -/
theorem failed_sources_isolated_empty_ok :
    (∀ (out1 out2 : List (Option SourcePart)),
      mergeParts (collectResponses (out1 ++ none :: out2)) =
        mergeParts (collectResponses (out1 ++ out2))) ∧
    (∀ (k : Nat) (d : Bool) (writeOk : Nat → Bool),
      MergeRun d (List.replicate k none) writeOk = ([], none)) ∧
    (∀ (d : Bool) (writeOk : Nat → Bool),
      MergeRun d [] writeOk = ([], none)) := by
  have hfm : ∀ k : Nat,
      (List.replicate k (none : Option SourcePart)).filterMap id = [] := by
    intro k
    induction k with
    | zero => rfl
    | succ k ih =>
      rw [List.replicate_succ, List.filterMap_cons]
      exact ih
  have hall : ∀ (k : Nat) (d : Bool) (writeOk : Nat → Bool),
      MergeRun d (List.replicate k none) writeOk = ([], none) := by
    intro k d writeOk
    show encodeLoop writeOk 0 (serializedFamilies
      (if d then
        deduplicateAll
          (mergeParts (List.replicate 1024 [] ++
            (List.replicate k (none : Option SourcePart)).filterMap id))
      else
        mergeParts (List.replicate 1024 [] ++
          (List.replicate k (none : Option SourcePart)).filterMap id))) =
      ([], none)
    rw [hfm k, mergeParts_replicate_nil]
    cases d <;> rfl
  refine ⟨?_, hall, fun d writeOk => hall 0 d writeOk⟩
  intro out1 out2
  have hc : collectResponses (out1 ++ none :: out2) =
      collectResponses (out1 ++ out2) := by
    unfold collectResponses
    rw [List.filterMap_append, List.filterMap_append, List.filterMap_cons]
    rfl
  rw [hc]

/-- Claim C6: the serializer emits family blocks in strictly ascending
lexicographic name order; a name-family pair is emitted exactly when the
merged set binds that name to that family (so each family's internal series
order is preserved exactly); and the output is unchanged under any
reordering of the merged set's bindings, hence independent of merge or
fetch order. -/
theorem serializer_lex_order (mfs : List (String × MetricFamily))
    (hnd : (mfs.map Prod.fst).Nodup) :
    List.Sorted (· < ·) ((serializedFamilies mfs).map Prod.fst) ∧
    (∀ (n : String) (f : MetricFamily),
      (n, f) ∈ serializedFamilies mfs ↔ lookupFamily mfs n = some f) ∧
    (∀ mfs' : List (String × MetricFamily), mfs.Perm mfs' →
      serializedFamilies mfs' = serializedFamilies mfs) :=
  ⟨serializedFamilies_sorted_keys mfs hnd,
   fun n f => mem_serializedFamilies_iff mfs n f,
   fun mfs' hp => (serializedFamilies_perm hp hnd).symm⟩

/-- Claim C6 (witness): a concrete two-family merged set, with distinct
names, instantiates the serializer ordering theorem. -/
theorem serializer_lex_order_witness :
    ((([("b", ⟨"b", "", MetricType.gauge, []⟩),
        ("a", ⟨"a", "", MetricType.gauge, []⟩)] :
        List (String × MetricFamily)).map Prod.fst).Nodup) ∧
    (List.Sorted (· < ·)
      ((serializedFamilies
        [("b", ⟨"b", "", MetricType.gauge, []⟩),
         ("a", ⟨"a", "", MetricType.gauge, []⟩)]).map Prod.fst) ∧
    (∀ (n : String) (f : MetricFamily),
      (n, f) ∈ serializedFamilies
        [("b", ⟨"b", "", MetricType.gauge, []⟩),
         ("a", ⟨"a", "", MetricType.gauge, []⟩)] ↔
      lookupFamily
        [("b", ⟨"b", "", MetricType.gauge, []⟩),
         ("a", ⟨"a", "", MetricType.gauge, []⟩)] n = some f) ∧
    (∀ mfs' : List (String × MetricFamily),
      ([("b", ⟨"b", "", MetricType.gauge, []⟩),
        ("a", ⟨"a", "", MetricType.gauge, []⟩)] :
        List (String × MetricFamily)).Perm mfs' →
      serializedFamilies mfs' = serializedFamilies
        [("b", ⟨"b", "", MetricType.gauge, []⟩),
         ("a", ⟨"a", "", MetricType.gauge, []⟩)])) :=
  ⟨by decide, serializer_lex_order _ (by decide)⟩

/-- Claim C7: when the writer rejects the `i`-th encode (all earlier writes
having succeeded), the loop returns exactly the families already written —
the partial output is kept, nothing is rolled back — stops emitting the
remaining families, and reports the error (the index logged before
returning); each write is attempted at most once. -/
theorem write_error_aborts_emission (writeOk : Nat → Bool)
    (fams : List (String × MetricFamily)) (i : Nat) (hi : i < fams.length)
    (hfail : writeOk i = false) (hok : ∀ j, j < i → writeOk j = true) :
    encodeLoop writeOk 0 fams = (fams.take i, some i) := by
  have h := encodeLoop_fail writeOk fams 0 i hi
    (fun j hj => by simpa using hok j hj)
    (by simpa using hfail)
  simpa using h

/-- Claim C7 (witness): with three families and a writer accepting only the
first write, emission stops after one family with the error reported. -/
theorem write_error_aborts_emission_witness :
    (1 < ([("a", ⟨"a", "", MetricType.gauge, []⟩),
           ("b", ⟨"b", "", MetricType.gauge, []⟩),
           ("c", ⟨"c", "", MetricType.gauge, []⟩)] :
        List (String × MetricFamily)).length) ∧
    ((fun j : Nat => j == 0) 1 = false) ∧
    (∀ j, j < 1 → (fun j : Nat => j == 0) j = true) ∧
    encodeLoop (fun j : Nat => j == 0) 0
      [("a", ⟨"a", "", MetricType.gauge, []⟩),
       ("b", ⟨"b", "", MetricType.gauge, []⟩),
       ("c", ⟨"c", "", MetricType.gauge, []⟩)] =
      (([("a", ⟨"a", "", MetricType.gauge, []⟩),
         ("b", ⟨"b", "", MetricType.gauge, []⟩),
         ("c", ⟨"c", "", MetricType.gauge, []⟩)] :
        List (String × MetricFamily)).take 1, some 1) :=
  ⟨by decide, by decide, by decide,
   write_error_aborts_emission _ _ 1 (by decide) (by decide) (by decide)⟩
